import Mathlib

/-!
Shallow embedding of the viral-genome-cataloger core: the similarity-graph
construction and greedy star clustering engine of
`src/viral_cataloger/pipeline.py`, together with the legacy clustering loop
of `create_genome_catalog.py`.

Numeric fields that the Python code handles as `float` are embedded as `ℚ`
(all values the specification constrains are exactly representable).
Python dicts are embedded as association lists in insertion order with
last-wins updates; Python sets, which the code only tests membership of and
removes from, are embedded as `Finset String`.  `sorted(...)` is embedded as
`List.insertionSort`, which has the same stability behaviour as Python's
stable sort (an element being inserted is placed before equal-key elements
that came later in the original list).
-/

namespace ViralCataloger

/-- Python `line.split()[0]`: the first whitespace-delimited token of a line
(used only on non-empty stripped lines, where `split()` is non-empty). -/
def firstToken (s : String) : String :=
  ((s.split Char.isWhitespace).filter (fun t => t != "")).headD ""

/-- The record-accumulating loop of `parse_fasta` (pipeline.py lines 67-85).
`cur` is the identifier of the record being read (`none` before the first
header line) and `chunks` the concatenation of its sequence lines so far
(Python keeps a list of chunks and joins with `""` on yield, which is the
same string). -/
def parseFastaAux : Option String → String → List String → List (String × String)
  | cur, chunks, [] =>
    match cur with
    | none => []
    | some i => [(i, chunks)]
  | cur, chunks, line :: rest =>
    let l := line.trim
    if l = "" then parseFastaAux cur chunks rest
    else if l.startsWith ">" then
      match cur with
      | none => parseFastaAux (some ((firstToken l).drop 1)) "" rest
      | some i => (i, chunks) :: parseFastaAux (some ((firstToken l).drop 1)) "" rest
    else parseFastaAux cur (chunks ++ l) rest

/-- `parse_fasta` (pipeline.py lines 67-85) over the lines of the file. -/
def parse_fasta (lines : List String) : List (String × String) :=
  parseFastaAux none "" lines

/-- Python-dict update: overwrite the value at an existing key in place,
otherwise append the binding.  Keys keep first-insertion order, values are
last-wins, exactly as for a `dict` built by a comprehension. -/
def dictUpsert {α : Type} (d : List (String × α)) (k : String) (v : α) :
    List (String × α) :=
  if d.any (fun p => p.1 == k) then
    d.map (fun p => if p.1 == k then (k, v) else p)
  else d ++ [(k, v)]

/-- Python-dict lookup returning `none` for a missing key (keys are unique
in any dict built by `dictUpsert`, so first match is the binding). -/
def dget? {α : Type} : List (String × α) → String → Option α
  | [], _ => none
  | p :: d, k => if p.1 = k then some p.2 else dget? d k

/-- `read_fasta_lengths` (pipeline.py lines 88-91): the dict comprehension
`{seq_id: len(seq) for seq_id, seq in parse_fasta(path)}`. -/
def read_fasta_lengths (lines : List String) : List (String × Nat) :=
  (parse_fasta lines).foldl (fun d r => dictUpsert d r.1 r.2.length) []

/-- `seq_lengths[s]` as a total function; greedy clustering only ever looks
up identifiers that are in the mapping, so the default is never observed
under the claims' hypotheses. -/
def lengthOf (lens : List (String × Nat)) (s : String) : Nat :=
  (dget? lens s).getD 0

/-- One line of the normalized ANI edge file as consumed by `load_ani_edges`
(pipeline.py lines 159-176): either the six parsed fields
(query, target, marker, identity, query coverage, target coverage), or a
line discarded by the field-count guard (`len(parts) < 6`) or by the
`float(...)` `ValueError` handler.  The marker field is bound but unused,
mirroring the `_` in the Python unpacking. -/
inductive AniLine where
  | malformed : AniLine
  | row (qname tname marker : String) (ani qcov tcov : ℚ) : AniLine

/-- One iteration of the `load_ani_edges` row loop (pipeline.py lines
160-176): self-comparisons and rows with an endpoint outside the vertex set
are discarded; a row meeting all three thresholds (inclusive `>=`) appends
the edge in both directions. -/
def aniEdgeStep (minAni minQcov minTcov : ℚ) (valid : List String)
    (f : String → List String) : AniLine → String → List String
  | .malformed => f
  | .row q t _ ani qcov tcov =>
    if q = t ∨ q ∉ valid ∨ t ∉ valid then f
    else if minAni ≤ ani ∧ minQcov ≤ qcov ∧ minTcov ≤ tcov then
      fun s => if s = q then f s ++ [t] else if s = t then f s ++ [q] else f s
    else f

/-- `load_ani_edges` (pipeline.py lines 148-177).  The Python dict
`{seq_id: [] for seq_id in valid_set}` is embedded as its lookup function
(the code only reads it through `edges.get(seq_id, [])`, and only ever
appends to keys inside `valid_set`, so identifiers outside the vertex set
always map to `[]`). -/
def load_ani_edges (rows : List AniLine) (minAni minQcov minTcov : ℚ)
    (valid : List String) : String → List String :=
  rows.foldl (fun f line => aniEdgeStep minAni minQcov minTcov valid f line)
    (fun _ => [])

/-- Lexicographic string order on the underlying character lists; this is
the same relation as `String` `≤` (`strLE_iff_le` below) but reduces inside
the kernel, so concrete runs of the clustering engine can be evaluated. -/
def strLE (a b : String) : Prop :=
  a.data ≤ b.data

/-- Strict lexicographic string order on the underlying character lists;
the same relation as `String` `<` (`strLT_iff_lt` below). -/
def strLT (a b : String) : Prop :=
  a.data < b.data

instance : DecidableRel strLE := fun a b =>
  inferInstanceAs (Decidable (a.data ≤ b.data))

instance : DecidableRel strLT := fun a b =>
  inferInstanceAs (Decidable (a.data < b.data))

theorem strLE_iff_le (a b : String) : strLE a b ↔ a ≤ b := by
  rw [String.le_iff_toList_le]
  exact Iff.rfl

theorem strLT_iff_lt (a b : String) : strLT a b ↔ a < b := by
  rw [String.lt_iff_toList_lt]
  exact Iff.rfl

/-- The clustering sort key (pipeline.py lines 192 and 203):
`key=lambda seq: (-seq_lengths[seq], seq)`, i.e. length descending with
identifier ascending as tie break, as a non-strict order. -/
def seqKeyLE (lf : String → Nat) (a b : String) : Prop :=
  lf b < lf a ∨ (lf a = lf b ∧ strLE a b)

/-- Strict version of `seqKeyLE`: `a` comes strictly before `b` in the
clustering order. -/
def seqKeyLT (lf : String → Nat) (a b : String) : Prop :=
  lf b < lf a ∨ (lf a = lf b ∧ strLT a b)

instance (lf : String → Nat) : DecidableRel (seqKeyLE lf) := fun a b =>
  inferInstanceAs (Decidable (lf b < lf a ∨ (lf a = lf b ∧ strLE a b)))

instance (lf : String → Nat) : DecidableRel (seqKeyLT lf) := fun a b =>
  inferInstanceAs (Decidable (lf b < lf a ∨ (lf a = lf b ∧ strLT a b)))

instance (lf : String → Nat) : IsTotal String (seqKeyLE lf) where
  total a b := by
    rcases lt_trichotomy (lf a) (lf b) with h | h | h
    · exact Or.inr (Or.inl h)
    · rcases le_total a.data b.data with hab | hab
      · exact Or.inl (Or.inr ⟨h, hab⟩)
      · exact Or.inr (Or.inr ⟨h.symm, hab⟩)
    · exact Or.inl (Or.inl h)

instance (lf : String → Nat) : IsTrans String (seqKeyLE lf) where
  trans a b c hab hbc := by
    rcases hab with h1 | ⟨h1, h1s⟩ <;> rcases hbc with h2 | ⟨h2, h2s⟩
    · exact Or.inl (h2.trans h1)
    · exact Or.inl (h2 ▸ h1)
    · exact Or.inl (by omega)
    · exact Or.inr ⟨h1.trans h2, le_trans h1s h2s⟩

theorem string_data_inj {a b : String} (h : a.data = b.data) : a = b := by
  cases a
  cases b
  cases h
  rfl

instance (lf : String → Nat) : IsAntisymm String (seqKeyLE lf) where
  antisymm a b hab hba := by
    rcases hab with h1 | ⟨h1, h1s⟩ <;> rcases hba with h2 | ⟨h2, h2s⟩
    · omega
    · omega
    · omega
    · exact string_data_inj (le_antisymm h1s h2s)

/-- `sorted(l, key=lambda seq: (-lf[seq], seq))`. -/
def sortByKey (lf : String → Nat) (l : List String) : List String :=
  List.insertionSort (seqKeyLE lf) l

/-- The inner member-claiming loop of `greedy_star_clustering` (pipeline.py
lines 206-209): walk the sorted neighbour list, and claim each neighbour
still in the unassigned set by removing it and appending it to the member
list. -/
def assignNeighbors : Finset String → List String → List String →
    Finset String × List String
  | un, members, [] => (un, members)
  | un, members, n :: rest =>
    if n ∈ un then assignNeighbors (un.erase n) (members ++ [n]) rest
    else assignNeighbors un members rest

/-- One iteration of the representative loop of `greedy_star_clustering`
(pipeline.py lines 197-210).  The state is the unassigned set together with
the clusters recorded so far (in discovery order, like the Python dict). -/
def greedyStep (lf : String → Nat) (edges : String → List String)
    (st : Finset String × List (String × List String)) (seqId : String) :
    Finset String × List (String × List String) :=
  if seqId ∈ st.1 then
    let un := st.1.erase seqId
    let nbrs := sortByKey lf ((edges seqId).filter (fun n => decide (n ∈ un)))
    let res := assignNeighbors un [seqId] nbrs
    (res.1, st.2 ++ [(seqId, res.2)])
  else st

/-- `greedy_star_clustering` (pipeline.py lines 180-211).  The clusters dict
is embedded as the list of (representative, members) pairs in insertion
order.  `sorted(seq_lengths.keys(), ...)` is embedded by sorting the
mapping's key list; the sort key `(-length, id)` is injective on the
(distinct) keys, so the result does not depend on dict iteration order. -/
def greedy_star_clustering (lens : List (String × Nat))
    (edges : String → List String) : List (String × List String) :=
  let lf := lengthOf lens
  let sorted := sortByKey lf (lens.map Prod.fst)
  (sorted.foldl (greedyStep lf edges) (sorted.toFinset, [])).2

/-- All member lists of a cluster partition, concatenated. -/
def clustersFlat (cl : List (String × List String)) : List String :=
  (cl.map Prod.snd).flatten

/-- One line of the raw skani output as seen by `format_skani_output`
(pipeline.py lines 132-142): either the five leading fields with the three
numeric ones parsed (query, target, identity, query alignment fraction,
target alignment fraction), or a line dropped by the `len(parts) < 5` guard
or by the `float(...)` `ValueError` handler. -/
inductive SkaniLine where
  | malformed : SkaniLine
  | row (qname tname : String) (ani qcov tcov : ℚ) : SkaniLine

/-- The value printed by Python `f"{x:.2f}"`, as an exact rational rounded to
two decimal digits.  All values the specification constrains are exact at
two decimals, where binary-float artifacts and tie-breaking play no role. -/
def fmt2 (x : ℚ) : ℚ :=
  ((round (x * 100) : ℤ) : ℚ) / 100

/-- A normalized 6-field output row of `format_skani_output` (pipeline.py
line 144): query, target, the literal constant `1`, identity, and the two
coverages converted from fractions to percentages, each numeric field
formatted to two decimal digits. -/
structure OutRow where
  qname : String
  tname : String
  marker : Nat
  ani : ℚ
  qcov : ℚ
  tcov : ℚ
deriving DecidableEq, Repr

/-- The per-line loop of `format_skani_output` over the lines after the
header (pipeline.py lines 132-145). -/
def formatRows : List SkaniLine → List OutRow
  | [] => []
  | .malformed :: rest => formatRows rest
  | .row q t ani qcov tcov :: rest =>
    ⟨q, t, 1, fmt2 ani, fmt2 (qcov * 100), fmt2 (tcov * 100)⟩ :: formatRows rest

/-- `format_skani_output` (pipeline.py lines 122-145): the first line is the
header read by `infile.readline()` and discarded (an empty file produces no
output), every later line is processed by the row loop. -/
def format_skani_output : List SkaniLine → List OutRow
  | [] => []
  | _ :: rest => formatRows rest

/-- `write_clusters` (pipeline.py lines 214-220): the cluster table as one
string, header row then one row per cluster. -/
def write_clusters (clusters : List (String × List String)) : String :=
  "representative\tmembers\n" ++
    String.join (clusters.map
      (fun p => p.1 ++ "\t" ++ String.intercalate "," p.2 ++ "\n"))

/-- Suffix test on the underlying character lists; the same predicate as
`String.endsWith`, in a form the kernel can evaluate. -/
def strEndsWith (s suf : String) : Bool :=
  suf.data.isSuffixOf s.data

/-- The glob patterns of `aggregate_fastas` (pipeline.py line 107): a file
participates when its name ends in `.fa`, `.fasta` or `.fna`. -/
def matchesFastaPattern (name : String) : Bool :=
  strEndsWith name ".fa" || strEndsWith name ".fasta" || strEndsWith name ".fna"

/-- `aggregate_fastas` (pipeline.py lines 104-119).  The input directory is
embedded as its (filename, contents) pairs; globbing is the pattern filter,
and the three patterns are mutually exclusive so the Python `set` collapse
deduplicates nothing.  The guard raises `FileNotFoundError` before the
output file is even opened, so a failing call performs no write; a
successful call returns the matched files sorted by name together with the
single combined file written. -/
def aggregate_fastas (dir : List (String × String)) :
    Except String (List (String × String) × String) :=
  let fastaFiles := List.insertionSort
    (fun p q : String × String => strLE p.1 q.1)
    (dir.filter (fun f => matchesFastaPattern f.1))
  if fastaFiles.isEmpty then
    Except.error "No FASTA files (*.fa, *.fasta, *.fna) found."
  else
    Except.ok (fastaFiles, String.join (fastaFiles.map Prod.snd))

/-- `ClusteringParams` (pipeline.py lines 19-28), paths as opaque strings. -/
structure ClusteringParams where
  fna : String
  ani : String
  out : String
  min_ani : ℚ
  min_qcov : ℚ
  min_tcov : ℚ

/-- `perform_clustering` (pipeline.py lines 237-273).  The two file reads
are embedded as `Option` arguments, `none` meaning the file cannot be opened
— in which case the Python `open` raises before any clustering work or any
write happens, embedded as `Except.error`.  On success the result is the
clusters together with the list of file writes performed (exactly one: the
cluster table). -/
def perform_clustering (fnaContent : Option String)
    (aniRows : Option (List AniLine)) (p : ClusteringParams) :
    Except String (List (String × List String) × List (String × String)) :=
  match fnaContent with
  | none => Except.error (p.fna ++ ": cannot open input sequence file")
  | some content =>
    let lens := read_fasta_lengths (content.splitOn "\n")
    match aniRows with
    | none => Except.error (p.ani ++ ": cannot open ANI edge file")
    | some rows =>
      let edges := load_ani_edges rows p.min_ani p.min_qcov p.min_tcov
        (lens.map Prod.fst)
      let clusters := greedy_star_clustering lens edges
      Except.ok (clusters, [(p.out, write_clusters clusters)])

/-- An output row of the normalizer re-read as an edge-file line, modelling
the write of `ani_formatted.txt` followed by `load_ani_edges` reading it
back. -/
def outRowToAniLine (r : OutRow) : AniLine :=
  AniLine.row r.qname r.tname (toString r.marker) r.ani r.qcov r.tcov

/-- `run_pipeline` (pipeline.py lines 276-353) up to the clustering step.
The external skani invocation is embedded as its parsed output lines; the
steps after clustering (representative-id write, seqkit extraction) are
outside every claim and elided.  The result carries the clusters and the
content-bearing files written so far; an error at any step aborts with the
writes of later steps never performed. -/
def run_pipeline (inputDir : List (String × String))
    (skaniLines : List SkaniLine) (minAni minTcov : ℚ) :
    Except String (List (String × List String) × List (String × String)) :=
  match aggregate_fastas inputDir with
  | Except.error e => Except.error e
  | Except.ok res =>
    let combined := res.2
    let formatted := format_skani_output skaniLines
    match perform_clustering (some combined)
        (some (formatted.map outRowToAniLine))
        ⟨"all_genomes.fa", "ani_formatted.txt", "clusters.tsv",
          minAni, 0, minTcov⟩ with
    | Except.error e => Except.error e
    | Except.ok cres =>
      Except.ok (cres.1, ("all_genomes.fa", combined) :: cres.2)

/-- The BFS expansion loop of `perform_clustering` in
create_genome_catalog.py (lines 108-119): `to_visit` queue (popped at the
front, extended at the back with the neighbours of each newly claimed
member), `visited` set, the growing member list, and the global
assigned-sequence set (`seq_to_clust`, of which only key membership is ever
used).  The Python `while` loop terminates because every iteration pops an
element and the queue only grows when a previously unvisited id is claimed;
`fuel` is an explicit iteration bound, and every concrete statement below
runs the loop to an empty queue well within its fuel. -/
def catalogVisit (edges : String → List String) :
    Nat → List String → Finset String → List String → Finset String →
      List String × Finset String
  | 0, _, _, members, assigned => (members, assigned)
  | _ + 1, [], _, members, assigned => (members, assigned)
  | fuel + 1, m :: rest, visited, members, assigned =>
    if m ∈ visited then catalogVisit edges fuel rest visited members assigned
    else if m ∈ assigned then
      catalogVisit edges fuel rest (insert m visited) members assigned
    else
      catalogVisit edges fuel (rest ++ edges m) (insert m visited)
        (members ++ [m]) (insert m assigned)

/-- One iteration of the representative loop of create_genome_catalog.py
(lines 104-119): a still-unassigned sequence starts a cluster and expands it
through the BFS queue seeded with its whole neighbour list. -/
def catalogStep (edges : String → List String) (fuel : Nat)
    (st : Finset String × List (String × List String)) (seqId : String) :
    Finset String × List (String × List String) :=
  if seqId ∈ st.1 then st
  else
    let res := catalogVisit edges fuel (edges seqId) {seqId} [seqId]
      (insert seqId st.1)
    (res.2, st.2 ++ [(seqId, res.1)])

/-- The vertex visiting order of create_genome_catalog.py (line 79):
`sorted(seqs_dict.items(), key=lambda item: item[1], reverse=True)` — by
length only, descending; Python's sort is stable also under `reverse=True`,
so equal-length sequences keep dict insertion order.  There is no
identifier tie break. -/
def catalogOrder (seqs : List (String × Nat)) : List String :=
  (List.insertionSort (fun p q : String × Nat => q.2 ≤ p.2) seqs).map Prod.fst

/-- The clustering portion of `perform_clustering` in
create_genome_catalog.py (lines 100-121), over the parsed length dict and
the edge adjacency. -/
def catalog_perform_clustering (seqs : List (String × Nat))
    (edges : String → List String) (fuel : Nat) :
    List (String × List String) :=
  ((catalogOrder seqs).foldl (catalogStep edges fuel) (∅, [])).2

/-! ### Basic lemmas about the clustering order and the inner loops -/

theorem seqKeyLT_irrefl (lf : String → Nat) (a : String) : ¬ seqKeyLT lf a a := by
  intro h
  rcases h with h | ⟨_, h⟩
  · omega
  · exact lt_irrefl _ h

theorem seqKeyLT_ne {lf : String → Nat} {a b : String}
    (h : seqKeyLT lf a b) : a ≠ b := by
  intro rfl0
  exact seqKeyLT_irrefl lf a (rfl0 ▸ h)

theorem seqKeyLE_ne_lt {lf : String → Nat} {a b : String}
    (hle : seqKeyLE lf a b) (hne : a ≠ b) : seqKeyLT lf a b := by
  rcases hle with h | ⟨heq, hdle⟩
  · exact Or.inl h
  · refine Or.inr ⟨heq, lt_of_le_of_ne hdle ?_⟩
    intro hdata
    exact hne (string_data_inj hdata)

@[simp]
theorem clustersFlat_nil : clustersFlat [] = [] := rfl

@[simp]
theorem clustersFlat_cons (p : String × List String)
    (cl : List (String × List String)) :
    clustersFlat (p :: cl) = p.2 ++ clustersFlat cl := by
  simp [clustersFlat]

/-- Complete description of the member-claiming loop (`assignNeighbors`): it
appends to the member list exactly one claimed subsequence `t` of the
neighbour list — the still-unassigned neighbours, each claimed once — and
removes exactly those from the unassigned set. -/
theorem assignNeighbors_spec (l : List String) :
    ∀ (un : Finset String) (ms : List String),
    ∃ t : List String,
      assignNeighbors un ms l = (un \ t.toFinset, ms ++ t) ∧
      t.Nodup ∧ t.Sublist l ∧
      (∀ x ∈ t, x ∈ un) ∧
      (∀ x ∈ l, x ∈ un → x ∈ t) := by
  induction l with
  | nil =>
    intro un ms
    refine ⟨[], ?_, ?_, ?_, ?_, ?_⟩ <;> simp [assignNeighbors]
  | cons n rest ih =>
    intro un ms
    by_cases hn : n ∈ un
    · obtain ⟨t, ht, hnd, hsub, hmem, hcomp⟩ := ih (un.erase n) (ms ++ [n])
      have hnt : n ∉ t := fun hc => (Finset.mem_erase.mp (hmem n hc)).1 rfl
      refine ⟨n :: t, ?_, ?_, ?_, ?_, ?_⟩
      · rw [assignNeighbors, if_pos hn, ht]
        refine Prod.ext ?_ (by simp)
        show un.erase n \ t.toFinset = un \ (n :: t).toFinset
        ext y
        simp only [Finset.mem_sdiff, Finset.mem_erase, List.toFinset_cons,
          Finset.mem_insert, List.mem_toFinset]
        tauto
      · exact List.nodup_cons.mpr ⟨hnt, hnd⟩
      · exact List.Sublist.cons₂ n hsub
      · intro x hx
        rcases List.mem_cons.mp hx with rfl0 | hx'
        · exact rfl0 ▸ hn
        · exact Finset.mem_of_mem_erase (hmem x hx')
      · intro x hx hxu
        rcases List.mem_cons.mp hx with rfl0 | hx'
        · exact rfl0 ▸ List.mem_cons_self n t
        · by_cases hxn : x = n
          · exact hxn ▸ List.mem_cons_self n t
          · exact List.mem_cons_of_mem n
              (hcomp x hx' (Finset.mem_erase.mpr ⟨hxn, hxu⟩))
    · obtain ⟨t, ht, hnd, hsub, hmem, hcomp⟩ := ih un ms
      refine ⟨t, ?_, hnd, hsub.cons n, hmem, ?_⟩
      · rw [assignNeighbors, if_neg hn, ht]
      · intro x hx hxu
        rcases List.mem_cons.mp hx with rfl0 | hx'
        · exact absurd (rfl0 ▸ hxu) hn
        · exact hcomp x hx' hxu

/-- Master invariant of the representative loop of `greedy_star_clustering`:
folding `greedyStep` over a duplicate-free visit list sorted by the
clustering order, starting from an unassigned set contained in that list,
empties the unassigned set and appends clusters whose members exactly
exhaust it, without repetition; each new cluster starts with its
representative, claims only direct neighbours of that representative, in
sorted order, and every claimed member comes strictly after its
representative in the clustering order. -/
theorem greedy_foldl_spec (lf : String → Nat) (edges : String → List String) :
    ∀ (l : List String), l.Nodup → l.Sorted (seqKeyLE lf) →
    ∀ (un : Finset String) (cl : List (String × List String)),
    un ⊆ l.toFinset →
    ∃ newcl : List (String × List String),
      l.foldl (greedyStep lf edges) (un, cl) = (∅, cl ++ newcl) ∧
      (clustersFlat newcl).Nodup ∧
      (clustersFlat newcl).toFinset = un ∧
      List.Sublist (newcl.map Prod.fst) l ∧
      (∀ p ∈ newcl, ∃ t, p.2 = p.1 :: t ∧ p.1 ∈ un ∧
        t.Sorted (seqKeyLE lf) ∧
        (∀ m ∈ t, m ∈ edges p.1 ∧ m ∈ un ∧ seqKeyLT lf p.1 m)) := by
  intro l
  induction l with
  | nil =>
    intro _ _ un cl hun
    refine ⟨[], ?_, by simp, ?_, by simp, by simp⟩
    · simp [Finset.subset_empty.mp hun]
    · simp [Finset.subset_empty.mp hun]
  | cons x rest ih =>
    intro hnd hsrt un cl hun
    have hndr : rest.Nodup := (List.nodup_cons.mp hnd).2
    have hxr : x ∉ rest := (List.nodup_cons.mp hnd).1
    have hsrtr : rest.Sorted (seqKeyLE lf) := hsrt.of_cons
    have hxle : ∀ y ∈ rest, seqKeyLE lf x y := List.rel_of_sorted_cons hsrt
    by_cases hx : x ∈ un
    · have hunsub : un.erase x ⊆ rest.toFinset := by
        intro y hy
        rcases Finset.mem_erase.mp hy with ⟨hyx, hyu⟩
        have := hun hyu
        simp only [List.toFinset_cons, Finset.mem_insert] at this
        rcases this with rfl0 | h
        · exact absurd rfl0 hyx
        · exact h
      obtain ⟨t, ht, htnd, htsub, htmem, _⟩ :=
        assignNeighbors_spec
          (sortByKey lf ((edges x).filter (fun n => decide (n ∈ un.erase x))))
          (un.erase x) [x]
      have hstep :
          greedyStep lf edges (un, cl) x =
            (un.erase x \ t.toFinset, cl ++ [(x, x :: t)]) := by
        simp only [greedyStep, hx, if_pos, ht]
        rfl
      have htun : ∀ m ∈ t, m ∈ un.erase x := htmem
      have hun2 : un.erase x \ t.toFinset ⊆ rest.toFinset :=
        fun y hy => hunsub (Finset.mem_sdiff.mp hy).1
      obtain ⟨newcl, hfold, hflnd, hflfin, hfst, hprops⟩ :=
        ih hndr hsrtr (un.erase x \ t.toFinset) (cl ++ [(x, x :: t)]) hun2
      have htin : ∀ m ∈ t, m ∈ edges x ∧ m ∈ un ∧ seqKeyLT lf x m := by
        intro m hm
        have hmn : m ∈ sortByKey lf
            ((edges x).filter (fun n => decide (n ∈ un.erase x))) :=
          htsub.mem hm
        rw [sortByKey, List.mem_insertionSort] at hmn
        have hmf := List.mem_filter.mp hmn
        have hmu : m ∈ un.erase x := by
          have := hmf.2
          simpa using this
        have hmr : m ∈ rest := by
          have := hunsub hmu
          simpa using this
        refine ⟨hmf.1, Finset.mem_of_mem_erase hmu, ?_⟩
        exact seqKeyLE_ne_lt (hxle m hmr)
          (fun h => (Finset.mem_erase.mp hmu).1 h.symm)
      refine ⟨(x, x :: t) :: newcl, ?_, ?_, ?_, ?_, ?_⟩
      · rw [List.foldl_cons, hstep, hfold]
        simp
      · have hxflat : x ∉ clustersFlat newcl := by
          intro hc
          have : x ∈ (clustersFlat newcl).toFinset := List.mem_toFinset.mpr hc
          rw [hflfin] at this
          exact (Finset.mem_erase.mp (Finset.mem_sdiff.mp this).1).1 rfl
        have hxt : x ∉ t :=
          fun hc => (Finset.mem_erase.mp (htun x hc)).1 rfl
        have hdisj : ∀ y ∈ t, y ∉ clustersFlat newcl := by
          intro y hy hc
          have : y ∈ (clustersFlat newcl).toFinset := List.mem_toFinset.mpr hc
          rw [hflfin] at this
          exact (Finset.mem_sdiff.mp this).2 (List.mem_toFinset.mpr hy)
        simp only [clustersFlat_cons, List.cons_append]
        refine List.nodup_cons.mpr ⟨?_, ?_⟩
        · intro hc
          rcases List.mem_append.mp hc with h | h
          · exact hxt h
          · exact hxflat h
        · exact List.nodup_append.mpr ⟨htnd, hflnd, fun y hy hc => hdisj y hy hc⟩
      · simp only [clustersFlat_cons, List.cons_append, List.toFinset_cons,
          List.toFinset_append]
        rw [hflfin]
        have h1 : t.toFinset ⊆ un.erase x := fun y hy =>
          htun y (List.mem_toFinset.mp hy)
        rw [Finset.union_sdiff_of_subset h1]
        exact Finset.insert_erase hx
      · exact List.Sublist.cons₂ x (by simpa using hfst)
      · intro p hp
        rcases List.mem_cons.mp hp with rfl0 | hp'
        · exact ⟨t, by rw [rfl0], rfl0 ▸ hx, by
            refine List.Pairwise.sublist htsub ?_
            exact List.sorted_insertionSort (seqKeyLE lf) _, by
            intro m hm
            exact rfl0 ▸ htin m hm⟩
        · obtain ⟨t', ht', hp1, hts, htm⟩ := hprops p hp'
          refine ⟨t', ht', Finset.mem_of_mem_erase (Finset.mem_sdiff.mp hp1).1,
            hts, ?_⟩
          intro m hm
          obtain ⟨h1, h2, h3⟩ := htm m hm
          exact ⟨h1, Finset.mem_of_mem_erase (Finset.mem_sdiff.mp h2).1, h3⟩
    · have hunsub : un ⊆ rest.toFinset := by
        intro y hy
        have := hun hy
        simp only [List.toFinset_cons, Finset.mem_insert] at this
        rcases this with rfl0 | h
        · exact absurd (rfl0 ▸ hy) hx
        · exact h
      have hstep : greedyStep lf edges (un, cl) x = (un, cl) := by
        simp only [greedyStep, hx, if_neg, ite_false]
      obtain ⟨newcl, hfold, hflnd, hflfin, hfst, hprops⟩ :=
        ih hndr hsrtr un cl hunsub
      exact ⟨newcl, by rw [List.foldl_cons, hstep, hfold], hflnd, hflfin,
        hfst.cons x, hprops⟩

/-- The facts the claims need about `greedy_star_clustering`, instantiated
from the master invariant: over a length mapping with distinct keys, the
member lists concatenate to a permutation of the key list without
repetition, the representatives are visited in the sorted order, every
cluster starts with its representative, claims only direct neighbours of
that representative in sorted order, and each claimed member comes strictly
after its representative in the clustering order. -/
theorem greedy_spec (lens : List (String × Nat)) (edges : String → List String)
    (hk : (lens.map Prod.fst).Nodup) :
    (clustersFlat (greedy_star_clustering lens edges)).Nodup ∧
    (clustersFlat (greedy_star_clustering lens edges)).Perm
      (lens.map Prod.fst) ∧
    List.Sublist ((greedy_star_clustering lens edges).map Prod.fst)
      (sortByKey (lengthOf lens) (lens.map Prod.fst)) ∧
    (∀ p ∈ greedy_star_clustering lens edges, ∃ t, p.2 = p.1 :: t ∧
      t.Sorted (seqKeyLE (lengthOf lens)) ∧
      (∀ m ∈ t, m ∈ edges p.1 ∧ m ∈ lens.map Prod.fst ∧
        seqKeyLT (lengthOf lens) p.1 m)) := by
  set lf := lengthOf lens with hlf
  set keys := lens.map Prod.fst with hkeys
  set sorted := sortByKey lf keys with hsorted
  have hperm : sorted.Perm keys := List.perm_insertionSort (seqKeyLE lf) keys
  have hnd : sorted.Nodup := hperm.nodup_iff.mpr hk
  have hsrt : sorted.Sorted (seqKeyLE lf) :=
    List.sorted_insertionSort (seqKeyLE lf) keys
  obtain ⟨newcl, hfold, hflnd, hflfin, hfst, hprops⟩ :=
    greedy_foldl_spec lf edges sorted hnd hsrt sorted.toFinset []
      (fun y hy => hy)
  have hres : greedy_star_clustering lens edges = newcl := by
    show (sorted.foldl (greedyStep lf edges) (sorted.toFinset, [])).2 = newcl
    rw [hfold]
    rfl
  rw [hres]
  have hmemkeys : ∀ y, y ∈ sorted.toFinset → y ∈ keys := by
    intro y hy
    exact hperm.mem_iff.mp (List.mem_toFinset.mp hy)
  refine ⟨hflnd, ?_, hfst, ?_⟩
  · refine List.perm_of_nodup_nodup_toFinset_eq hflnd hk ?_
    rw [hflfin]
    exact List.toFinset_eq_of_perm _ _ hperm
  · intro p hp
    obtain ⟨t, ht, hp1, hts, htm⟩ := hprops p hp
    refine ⟨t, ht, hts, ?_⟩
    intro m hm
    obtain ⟨h1, h2, h3⟩ := htm m hm
    exact ⟨h1, hmemkeys m h2, h3⟩

/-- A flat member concatenation without repetition makes the member lists
pairwise disjoint. -/
theorem pairwise_disjoint_of_flat_nodup (cl : List (String × List String))
    (h : (clustersFlat cl).Nodup) :
    List.Pairwise (fun p q => ∀ y, y ∈ p.2 → y ∉ q.2) cl := by
  have h2 := (List.nodup_flatten.mp h).2
  rw [List.pairwise_map] at h2
  exact h2.imp (fun hD y hy hq => hD hy hq)

/-- A flat member concatenation without repetition makes each member list
duplicate-free. -/
theorem member_nodup_of_flat_nodup (cl : List (String × List String))
    (h : (clustersFlat cl).Nodup) :
    ∀ p ∈ cl, p.2.Nodup := by
  have h1 := (List.nodup_flatten.mp h).1
  intro p hp
  exact h1 p.2 (List.mem_map_of_mem Prod.snd hp)

/-! ### Claim theorems -/

/-- C1: for every length mapping and every adjacency whose keys and
neighbour entries lie within the mapping's key set, the clusters returned by
`greedy_star_clustering` partition the vertex set: the member lists
concatenate, with no identifier repeated, to a permutation of the key list
(so every sequence identifier appears in exactly one member list, the
member lists are pairwise disjoint and their union is the full vertex set),
and each representative is the first element of its own member list. -/
theorem C1_partition (lens : List (String × Nat))
    (edges : String → List String) (hk : (lens.map Prod.fst).Nodup)
    (_hedges : ∀ s n, n ∈ edges s →
      s ∈ lens.map Prod.fst ∧ n ∈ lens.map Prod.fst) :
    (clustersFlat (greedy_star_clustering lens edges)).Perm
      (lens.map Prod.fst) ∧
    (clustersFlat (greedy_star_clustering lens edges)).Nodup ∧
    List.Pairwise (fun p q => ∀ y, y ∈ p.2 → y ∉ q.2)
      (greedy_star_clustering lens edges) ∧
    (∀ p ∈ greedy_star_clustering lens edges, p.2.head? = some p.1) := by
  obtain ⟨hnd, hperm, _, hprops⟩ := greedy_spec lens edges hk
  refine ⟨hperm, hnd, pairwise_disjoint_of_flat_nodup _ hnd, ?_⟩
  intro p hp
  obtain ⟨t, ht, _⟩ := hprops p hp
  rw [ht]
  rfl

theorem C1_partition_witness :
    ((([("a", 1), ("b", 1)] : List (String × Nat)).map Prod.fst).Nodup) ∧
    ((clustersFlat (greedy_star_clustering [("a", 1), ("b", 1)]
        (fun _ => []))).Perm
      (([("a", 1), ("b", 1)] : List (String × Nat)).map Prod.fst) ∧
    (clustersFlat (greedy_star_clustering [("a", 1), ("b", 1)]
        (fun _ => []))).Nodup ∧
    List.Pairwise (fun p q => ∀ y, y ∈ p.2 → y ∉ q.2)
      (greedy_star_clustering [("a", 1), ("b", 1)] (fun _ => [])) ∧
    (∀ p ∈ greedy_star_clustering [("a", 1), ("b", 1)] (fun _ => []),
      p.2.head? = some p.1)) :=
  ⟨by decide, C1_partition [("a", 1), ("b", 1)] (fun _ => []) (by decide)
    (fun s n h => absurd h (List.not_mem_nil n))⟩

/-- The adjacency of the chain a–b–c (a 3-vertex path with no a–c edge),
used to exhibit transitive expansion in the legacy clustering loop. -/
def exChainEdges : String → List String := fun s =>
  if s = "a" then ["b"]
  else if s = "b" then ["a", "c"]
  else if s = "c" then ["b"] else []

/-- C2 (counterexample): the one-hop property does not hold for
`perform_clustering` in create_genome_catalog.py.  On the chain a–b–c with
lengths 3, 2, 1, its BFS loop ("check neighbors and neighbors of
neighbors") places c in a's cluster although there is no (a, c) edge, while
`greedy_star_clustering` on the same input keeps c out of a's cluster. -/
theorem C2_counterexample :
    catalog_perform_clustering [("a", 3), ("b", 2), ("c", 1)] exChainEdges 10
      = [("a", ["a", "b", "c"])] ∧
    "c" ∉ exChainEdges "a" ∧
    greedy_star_clustering [("a", 3), ("b", 2), ("c", 1)] exChainEdges
      = [("a", ["a", "b"]), ("c", ["c"])] := by
  refine ⟨by decide, by decide, by decide⟩

/-- C2 (amended): in `greedy_star_clustering` (pipeline.py), every
non-representative member of a cluster is a direct neighbour of the
cluster's representative in the input adjacency — no transitive expansion.
(The legacy `perform_clustering` of create_genome_catalog.py instead
expands clusters through neighbours of neighbours, see the
counterexample.) -/
theorem C2_one_hop (lens : List (String × Nat))
    (edges : String → List String) (hk : (lens.map Prod.fst).Nodup) :
    ∀ p ∈ greedy_star_clustering lens edges, ∀ m ∈ p.2, m ≠ p.1 →
      m ∈ edges p.1 := by
  obtain ⟨_, _, _, hprops⟩ := greedy_spec lens edges hk
  intro p hp m hm hne
  obtain ⟨t, ht, _, htm⟩ := hprops p hp
  rw [ht] at hm
  rcases List.mem_cons.mp hm with rfl0 | hm'
  · exact absurd rfl0 hne
  · exact (htm m hm').1

theorem C2_one_hop_witness :
    ((([("a", 2), ("b", 1)] : List (String × Nat)).map Prod.fst).Nodup) ∧
    (∀ p ∈ greedy_star_clustering [("a", 2), ("b", 1)] exChainEdges,
      ∀ m ∈ p.2, m ≠ p.1 → m ∈ exChainEdges p.1) :=
  ⟨by decide, C2_one_hop [("a", 2), ("b", 1)] exChainEdges (by decide)⟩

/-- C3 (counterexample): the two implementations do not order equal-length
sequences the same way, so fixed inputs do not yield identical results
across implementations.  With two equal-length sequences inserted in the
order b, a and no edges, `greedy_star_clustering` (length descending, then
identifier ascending) visits a first, while the legacy
`perform_clustering` (length descending only, stable) visits b first. -/
theorem C3_counterexample :
    greedy_star_clustering [("b", 2), ("a", 2)] (fun _ => [])
      = [("a", ["a"]), ("b", ["b"])] ∧
    catalog_perform_clustering [("b", 2), ("a", 2)] (fun _ => []) 10
      = [("b", ["b"]), ("a", ["a"])] ∧
    greedy_star_clustering [("b", 2), ("a", 2)] (fun _ => []) ≠
      catalog_perform_clustering [("b", 2), ("a", 2)] (fun _ => []) 10 := by
  refine ⟨by decide, by decide, by decide⟩

/-- C3 (amended): `greedy_star_clustering` (pipeline.py) visits vertices in
the total order with primary key length descending and secondary key
identifier ascending — the visit list is sorted by that order and is a
permutation of the key list, the representatives appear as a subsequence of
it, and each cluster's claimed members are processed (hence stored) in that
same order.  Being a pure function of (lengths, edges), its output is
deterministic.  (The legacy create_genome_catalog.py engine sorts by length
only and visits neighbours in edge-insertion order, so the two
implementations may differ on equal-length sequences, see the
counterexample.) -/
theorem C3_deterministic_order (lens : List (String × Nat))
    (edges : String → List String) (hk : (lens.map Prod.fst).Nodup) :
    (sortByKey (lengthOf lens) (lens.map Prod.fst)).Sorted
      (seqKeyLE (lengthOf lens)) ∧
    (sortByKey (lengthOf lens) (lens.map Prod.fst)).Perm
      (lens.map Prod.fst) ∧
    List.Sublist ((greedy_star_clustering lens edges).map Prod.fst)
      (sortByKey (lengthOf lens) (lens.map Prod.fst)) ∧
    (∀ p ∈ greedy_star_clustering lens edges, ∃ t, p.2 = p.1 :: t ∧
      t.Sorted (seqKeyLE (lengthOf lens))) := by
  obtain ⟨_, _, hfst, hprops⟩ := greedy_spec lens edges hk
  refine ⟨List.sorted_insertionSort _ _, List.perm_insertionSort _ _,
    hfst, ?_⟩
  intro p hp
  obtain ⟨t, ht, hts, _⟩ := hprops p hp
  exact ⟨t, ht, hts⟩

theorem C3_deterministic_order_witness :
    ((([("b", 2), ("a", 2)] : List (String × Nat)).map Prod.fst).Nodup) ∧
    ((sortByKey (lengthOf [("b", 2), ("a", 2)])
        (([("b", 2), ("a", 2)] : List (String × Nat)).map Prod.fst)).Sorted
      (seqKeyLE (lengthOf [("b", 2), ("a", 2)])) ∧
    (sortByKey (lengthOf [("b", 2), ("a", 2)])
        (([("b", 2), ("a", 2)] : List (String × Nat)).map Prod.fst)).Perm
      (([("b", 2), ("a", 2)] : List (String × Nat)).map Prod.fst) ∧
    List.Sublist
      ((greedy_star_clustering [("b", 2), ("a", 2)]
        (fun _ => [])).map Prod.fst)
      (sortByKey (lengthOf [("b", 2), ("a", 2)])
        (([("b", 2), ("a", 2)] : List (String × Nat)).map Prod.fst)) ∧
    (∀ p ∈ greedy_star_clustering [("b", 2), ("a", 2)] (fun _ => []),
      ∃ t, p.2 = p.1 :: t ∧
        t.Sorted (seqKeyLE (lengthOf [("b", 2), ("a", 2)])))) :=
  ⟨by decide,
    C3_deterministic_order [("b", 2), ("a", 2)] (fun _ => []) (by decide)⟩

/-- C10: in every cluster of `greedy_star_clustering`, the representative is
maximal among the members under the clustering order: every other member is
strictly shorter, or of equal length with the representative preceding it in
ascending lexicographic identifier order; in particular no member is longer
than its representative. -/
theorem C10_rep_maximal (lens : List (String × Nat))
    (edges : String → List String) (hk : (lens.map Prod.fst).Nodup) :
    ∀ p ∈ greedy_star_clustering lens edges, ∀ m ∈ p.2, m ≠ p.1 →
      (lengthOf lens m < lengthOf lens p.1 ∨
        (lengthOf lens p.1 = lengthOf lens m ∧ p.1 < m)) ∧
      lengthOf lens m ≤ lengthOf lens p.1 := by
  obtain ⟨_, _, _, hprops⟩ := greedy_spec lens edges hk
  intro p hp m hm hne
  obtain ⟨t, ht, _, htm⟩ := hprops p hp
  rw [ht] at hm
  rcases List.mem_cons.mp hm with rfl0 | hm'
  · exact absurd rfl0 hne
  · have h3 := (htm m hm').2.2
    rcases h3 with h | ⟨heq, hlt⟩
    · exact ⟨Or.inl h, Nat.le_of_lt h⟩
    · exact ⟨Or.inr ⟨heq, (strLT_iff_lt p.1 m).mp hlt⟩, Nat.le_of_eq heq.symm⟩

theorem C10_rep_maximal_witness :
    ((([("a", 2), ("b", 1)] : List (String × Nat)).map Prod.fst).Nodup) ∧
    (∀ p ∈ greedy_star_clustering [("a", 2), ("b", 1)] exChainEdges,
      ∀ m ∈ p.2, m ≠ p.1 →
        (lengthOf [("a", 2), ("b", 1)] m
            < lengthOf [("a", 2), ("b", 1)] p.1 ∨
          (lengthOf [("a", 2), ("b", 1)] p.1
              = lengthOf [("a", 2), ("b", 1)] m ∧ p.1 < m)) ∧
        lengthOf [("a", 2), ("b", 1)] m ≤ lengthOf [("a", 2), ("b", 1)] p.1) :=
  ⟨by decide, C10_rep_maximal [("a", 2), ("b", 1)] exChainEdges (by decide)⟩

/-! ### Duplicate parallel edges (claim C8) -/

/-- Claiming a duplicated entry is a no-op: once the first copy has been
processed, the element is no longer unassigned, so the adjacent second copy
is skipped. -/
theorem assignNeighbors_dup (x : String) (v : List String) :
    ∀ (u : List String) (un : Finset String) (ms : List String),
    assignNeighbors un ms (u ++ x :: x :: v) =
      assignNeighbors un ms (u ++ x :: v) := by
  intro u
  induction u with
  | nil =>
    intro un ms
    by_cases hx : x ∈ un
    · simp [assignNeighbors, hx, Finset.not_mem_erase]
    · simp [assignNeighbors, hx]
  | cons h u ih =>
    intro un ms
    by_cases hh : h ∈ un
    · simp [assignNeighbors, hh, ih]
    · simp [assignNeighbors, hh, ih]

theorem seqKeyLE_refl (lf : String → Nat) (a : String) : seqKeyLE lf a a :=
  Or.inr ⟨rfl, le_refl a.data⟩

/-- With the (antisymmetric, total, transitive) clustering order, sorting is
invariant under permutation of the input. -/
theorem sortByKey_eq_of_perm (lf : String → Nat) {l l' : List String}
    (h : l.Perm l') : sortByKey lf l = sortByKey lf l' :=
  List.eq_of_perm_of_sorted
    ((List.perm_insertionSort (seqKeyLE lf) l).trans
      (h.trans (List.perm_insertionSort (seqKeyLE lf) l').symm))
    (List.sorted_insertionSort (seqKeyLE lf) l)
    (List.sorted_insertionSort (seqKeyLE lf) l')

/-- Sorting a list with one entry duplicated yields the sorted original with
the two copies adjacent. -/
theorem sortByKey_duplicate (lf : String → Nat) (L : List String) (x : String)
    (hx : x ∈ L) :
    ∃ u v, sortByKey lf L = u ++ x :: v ∧
      sortByKey lf (x :: L) = u ++ x :: x :: v := by
  have hx2 : x ∈ sortByKey lf L := (List.mem_insertionSort (seqKeyLE lf)).mpr hx
  obtain ⟨u, v, huv⟩ := List.append_of_mem hx2
  refine ⟨u, v, huv, ?_⟩
  have hsrt : (sortByKey lf L).Sorted (seqKeyLE lf) :=
    List.sorted_insertionSort (seqKeyLE lf) L
  rw [huv] at hsrt
  have hsorted2 : (u ++ x :: x :: v).Sorted (seqKeyLE lf) := by
    rw [List.Sorted, List.pairwise_append] at hsrt ⊢
    obtain ⟨h1, h2, h3⟩ := hsrt
    rw [List.pairwise_cons] at h2
    obtain ⟨h2a, h2b⟩ := h2
    refine ⟨h1, ?_, ?_⟩
    · rw [List.pairwise_cons]
      refine ⟨?_, List.pairwise_cons.mpr ⟨h2a, h2b⟩⟩
      intro b hb
      rcases List.mem_cons.mp hb with rfl0 | hb0
      · exact rfl0 ▸ seqKeyLE_refl lf x
      · exact h2a b hb0
    · intro a ha b hb
      rcases List.mem_cons.mp hb with rfl0 | hb0
      · exact rfl0 ▸ h3 a ha x (List.mem_cons_self x v)
      · exact h3 a ha b hb0
  have hLperm : L.Perm (u ++ x :: v) := by
    rw [← huv]
    exact (List.perm_insertionSort (seqKeyLE lf) L).symm
  have hperm3 : (sortByKey lf (x :: L)).Perm (u ++ x :: x :: v) := by
    refine (List.perm_insertionSort (seqKeyLE lf) (x :: L)).trans ?_
    refine (List.Perm.cons x hLperm).trans ?_
    exact List.perm_middle.symm
  exact List.eq_of_perm_of_sorted hperm3
    (List.sorted_insertionSort (seqKeyLE lf) (x :: L)) hsorted2

/-- Folding pointwise-equal step functions gives equal results. -/
theorem foldl_ext {α β : Type} (f g : α → β → α)
    (h : ∀ st s, f st s = g st s) :
    ∀ (l : List β) (st : α), l.foldl f st = l.foldl g st := by
  intro l
  induction l with
  | nil => intro st; rfl
  | cons b l ih =>
    intro st
    rw [List.foldl_cons, List.foldl_cons, h, ih]

/-- One representative step is unchanged by duplicating an entry of a
neighbour list: the duplicate either fails the unassigned filter together
with the original, or survives adjacent to it in the sorted neighbour list,
where claiming it a second time is a no-op. -/
theorem greedyStep_dup (lf : String → Nat) (edges : String → List String)
    (k x : String) (l₁ l₂ : List String) (hk : edges k = l₁ ++ x :: l₂) :
    ∀ st seqId,
      greedyStep lf (Function.update edges k (l₁ ++ x :: x :: l₂)) st seqId =
        greedyStep lf edges st seqId := by
  intro st seqId
  by_cases hs : seqId = k
  · subst hs
    by_cases hmem : seqId ∈ st.1
    · simp only [greedyStep, hmem, if_pos, Function.update_same, hk]
      set p := fun n => decide (n ∈ st.1.erase seqId) with hp
      by_cases hfx : p x = true
      · have hfil : (l₁ ++ x :: x :: l₂).filter p =
            l₁.filter p ++ x :: x :: l₂.filter p := by
          rw [List.filter_append, List.filter_cons_of_pos hfx,
            List.filter_cons_of_pos hfx]
        have hfil2 : (l₁ ++ x :: l₂).filter p =
            l₁.filter p ++ x :: l₂.filter p := by
          rw [List.filter_append, List.filter_cons_of_pos hfx]
        have hxmem : x ∈ (l₁ ++ x :: l₂).filter p := by
          rw [hfil2]
          exact List.mem_append.mpr (Or.inr (List.mem_cons_self x _))
        obtain ⟨u, v, huv, hdup⟩ := sortByKey_duplicate lf
          ((l₁ ++ x :: l₂).filter p) x hxmem
        have hperm : ((l₁ ++ x :: x :: l₂).filter p).Perm
            (x :: (l₁ ++ x :: l₂).filter p) := by
          rw [hfil, hfil2]
          exact List.perm_middle
        rw [sortByKey_eq_of_perm lf hperm, hdup, huv, assignNeighbors_dup]
      · have hfil : (l₁ ++ x :: x :: l₂).filter p =
            (l₁ ++ x :: l₂).filter p := by
          rw [List.filter_append, List.filter_append,
            List.filter_cons_of_neg hfx, List.filter_cons_of_neg hfx]
        rw [hfil]
    · simp only [greedyStep, hmem, if_neg, ite_false]
  · by_cases hmem : seqId ∈ st.1
    · simp only [greedyStep, hmem, if_pos, Function.update_noteq hs]
    · simp only [greedyStep, hmem, if_neg, ite_false]

/-- C8: duplicate parallel edges are harmless.  Duplicating any entry of any
neighbour list leaves the partition returned by `greedy_star_clustering`
unchanged, and no identifier is ever appended to a member list more than
once (member lists are duplicate-free) even when it occurs multiple times in
a representative's neighbour list. -/
theorem C8_duplicate_edges (lens : List (String × Nat))
    (edges : String → List String) (k x : String) (l₁ l₂ : List String)
    (hdup : edges k = l₁ ++ x :: l₂) (hk : (lens.map Prod.fst).Nodup) :
    greedy_star_clustering lens
        (Function.update edges k (l₁ ++ x :: x :: l₂)) =
      greedy_star_clustering lens edges ∧
    (∀ p ∈ greedy_star_clustering lens
        (Function.update edges k (l₁ ++ x :: x :: l₂)), p.2.Nodup) ∧
    (∀ p ∈ greedy_star_clustering lens edges, p.2.Nodup) := by
  have hstep := greedyStep_dup (lengthOf lens) edges k x l₁ l₂ hdup
  have heq : greedy_star_clustering lens
      (Function.update edges k (l₁ ++ x :: x :: l₂)) =
        greedy_star_clustering lens edges := by
    show ((sortByKey (lengthOf lens) (lens.map Prod.fst)).foldl
        (greedyStep (lengthOf lens)
          (Function.update edges k (l₁ ++ x :: x :: l₂)))
        ((sortByKey (lengthOf lens) (lens.map Prod.fst)).toFinset, [])).2 =
      ((sortByKey (lengthOf lens) (lens.map Prod.fst)).foldl
        (greedyStep (lengthOf lens) edges)
        ((sortByKey (lengthOf lens) (lens.map Prod.fst)).toFinset, [])).2
    rw [foldl_ext _ _ hstep]
  obtain ⟨hnd, _, _, _⟩ := greedy_spec lens edges hk
  refine ⟨heq, ?_, member_nodup_of_flat_nodup _ hnd⟩
  rw [heq]
  exact member_nodup_of_flat_nodup _ hnd

theorem C8_duplicate_edges_witness :
    (exChainEdges "b" = ["a"] ++ "c" :: [] ∧
      (([("a", 3), ("b", 2), ("c", 1)] :
        List (String × Nat)).map Prod.fst).Nodup) ∧
    (greedy_star_clustering [("a", 3), ("b", 2), ("c", 1)]
        (Function.update exChainEdges "b" (["a"] ++ "c" :: "c" :: [])) =
      greedy_star_clustering [("a", 3), ("b", 2), ("c", 1)] exChainEdges ∧
    (∀ p ∈ greedy_star_clustering [("a", 3), ("b", 2), ("c", 1)]
        (Function.update exChainEdges "b" (["a"] ++ "c" :: "c" :: [])),
      p.2.Nodup) ∧
    (∀ p ∈ greedy_star_clustering [("a", 3), ("b", 2), ("c", 1)]
        exChainEdges, p.2.Nodup)) :=
  ⟨⟨by decide, by decide⟩,
    C8_duplicate_edges [("a", 3), ("b", 2), ("c", 1)] exChainEdges
      "b" "c" ["a"] [] (by decide) (by decide)⟩

/-! ### Threshold monotonicity (claim C4) -/

/-- Rows never append a neighbour to an identifier outside the vertex set,
whatever the thresholds: the initial adjacency is empty and both endpoints
of every accepted row are checked against the vertex set. -/
theorem load_ani_edges_outside_aux (a q t : ℚ) (valid : List String) :
    ∀ (rows : List AniLine) (f : String → List String),
    (∀ s, s ∉ valid → f s = []) →
    ∀ s, s ∉ valid →
      (rows.foldl (fun f line => aniEdgeStep a q t valid f line) f) s = [] := by
  intro rows
  induction rows with
  | nil => intro f hf s hs; exact hf s hs
  | cons r rows ih =>
    intro f hf s hs
    rw [List.foldl_cons]
    refine ih (aniEdgeStep a q t valid f r) ?_ s hs
    intro s' hs'
    match r with
    | AniLine.malformed => exact hf s' hs'
    | AniLine.row qn tn mk ani qc tc =>
      show aniEdgeStep a q t valid f (AniLine.row qn tn mk ani qc tc) s' = []
      rw [aniEdgeStep]
      by_cases hg : qn = tn ∨ qn ∉ valid ∨ tn ∉ valid
      · rw [if_pos hg]
        exact hf s' hs'
      · rw [if_neg hg]
        push_neg at hg
        obtain ⟨_, hqv, htv⟩ := hg
        by_cases hc : a ≤ ani ∧ q ≤ qc ∧ t ≤ tc
        · rw [if_pos hc]
          have hsq : s' ≠ qn := fun h => hs' (h ▸ hqv)
          have hst : s' ≠ tn := fun h => hs' (h ▸ htv)
          rw [if_neg hsq, if_neg hst]
          exact hf s' hs'
        · rw [if_neg hc]
          exact hf s' hs'

/-- Raising thresholds only removes rows from consideration, so every
neighbour list under the raised thresholds is a sublist (order-preserving
selection) of the corresponding list under the lower thresholds. -/
theorem load_ani_edges_mono_aux {a1 q1 t1 a2 q2 t2 : ℚ} (valid : List String)
    (ha : a1 ≤ a2) (hq : q1 ≤ q2) (ht : t1 ≤ t2) :
    ∀ (rows : List AniLine) (f g : String → List String),
    (∀ s, List.Sublist (g s) (f s)) →
    ∀ s, List.Sublist
      ((rows.foldl (fun f line => aniEdgeStep a2 q2 t2 valid f line) g) s)
      ((rows.foldl (fun f line => aniEdgeStep a1 q1 t1 valid f line) f) s) := by
  intro rows
  induction rows with
  | nil => intro f g hsub s; exact hsub s
  | cons r rows ih =>
    intro f g hsub s
    rw [List.foldl_cons, List.foldl_cons]
    refine ih (aniEdgeStep a1 q1 t1 valid f r)
      (aniEdgeStep a2 q2 t2 valid g r) ?_ s
    intro s'
    match r with
    | AniLine.malformed => exact hsub s'
    | AniLine.row qn tn mk ani qc tc =>
      show List.Sublist
        (aniEdgeStep a2 q2 t2 valid g (AniLine.row qn tn mk ani qc tc) s')
        (aniEdgeStep a1 q1 t1 valid f (AniLine.row qn tn mk ani qc tc) s')
      rw [aniEdgeStep, aniEdgeStep]
      by_cases hg : qn = tn ∨ qn ∉ valid ∨ tn ∉ valid
      · rw [if_pos hg, if_pos hg]
        exact hsub s'
      · rw [if_neg hg, if_neg hg]
        by_cases hc2 : a2 ≤ ani ∧ q2 ≤ qc ∧ t2 ≤ tc
        · have hc1 : a1 ≤ ani ∧ q1 ≤ qc ∧ t1 ≤ tc :=
            ⟨ha.trans hc2.1, hq.trans hc2.2.1, ht.trans hc2.2.2⟩
          rw [if_pos hc2, if_pos hc1]
          by_cases hsq : s' = qn
          · rw [if_pos hsq, if_pos hsq]
            exact List.Sublist.append (hsub s') (List.Sublist.refl [tn])
          · rw [if_neg hsq, if_neg hsq]
            by_cases hst : s' = tn
            · rw [if_pos hst, if_pos hst]
              exact List.Sublist.append (hsub s') (List.Sublist.refl [qn])
            · rw [if_neg hst, if_neg hst]
              exact hsub s'
        · rw [if_neg hc2]
          by_cases hc1 : a1 ≤ ani ∧ q1 ≤ qc ∧ t1 ≤ tc
          · rw [if_pos hc1]
            by_cases hsq : s' = qn
            · rw [if_pos hsq]
              exact (hsub s').trans (List.sublist_append_left (f s') [tn])
            · rw [if_neg hsq]
              by_cases hst : s' = tn
              · rw [if_pos hst]
                exact (hsub s').trans (List.sublist_append_left (f s') [qn])
              · rw [if_neg hst]
                exact hsub s'
          · rw [if_neg hc1]
            exact hsub s'

/-- C4 (amended): raising any of the three thresholds only removes edges
from the adjacency built by `load_ani_edges` — under the raised thresholds
every neighbour list is a sublist of the one under the lower thresholds —
and the vertex set is unchanged (identifiers outside the valid set have no
neighbours under either setting).  The further conclusion of the claim, that
each specific cluster of `greedy_star_clustering` can then only shrink or
stay the same, is false: see the counterexample. -/
theorem C4_threshold_monotone (rows : List AniLine) (valid : List String)
    (a1 q1 t1 a2 q2 t2 : ℚ)
    (ha : a1 ≤ a2) (hq : q1 ≤ q2) (ht : t1 ≤ t2) :
    (∀ s, List.Sublist (load_ani_edges rows a2 q2 t2 valid s)
      (load_ani_edges rows a1 q1 t1 valid s)) ∧
    (∀ s, s ∉ valid → load_ani_edges rows a2 q2 t2 valid s = [] ∧
      load_ani_edges rows a1 q1 t1 valid s = []) := by
  constructor
  · exact load_ani_edges_mono_aux valid ha hq ht rows
      (fun _ => []) (fun _ => []) (fun s => List.Sublist.refl [])
  · intro s hs
    exact ⟨load_ani_edges_outside_aux a2 q2 t2 valid rows
        (fun _ => []) (fun _ _ => rfl) s hs,
      load_ani_edges_outside_aux a1 q1 t1 valid rows
        (fun _ => []) (fun _ _ => rfl) s hs⟩

/-- Length mapping of the threshold-monotonicity counterexample. -/
def exMonoLens : List (String × Nat) := [("a", 3), ("c", 2), ("d", 1)]

/-- Edge rows of the threshold-monotonicity counterexample: edge a–d has
identity 96, edge c–d identity 99, both with coverages 90. -/
def exMonoRows : List AniLine :=
  [AniLine.row "a" "d" "1" 96 90 90, AniLine.row "c" "d" "1" 99 90 90]

/-- C4 (counterexample): raising the minimum identity from 95 to 98 removes
the a–d edge but keeps c–d, and the cluster of representative c GROWS from
[c] to [c, d] — the longest sequence a no longer claims d, which is then
claimed by c.  So a specific cluster's member list can grow when a threshold
is raised, contrary to the claim's final conclusion. -/
theorem C4_counterexample :
    greedy_star_clustering exMonoLens
        (load_ani_edges exMonoRows 95 85 85 ["a", "c", "d"])
      = [("a", ["a", "d"]), ("c", ["c"])] ∧
    greedy_star_clustering exMonoLens
        (load_ani_edges exMonoRows 98 85 85 ["a", "c", "d"])
      = [("a", ["a"]), ("c", ["c", "d"])] ∧
    ¬ ((["c", "d"] : List String) ⊆ ["c"]) := by
  refine ⟨by decide, by decide, by decide⟩

theorem C4_threshold_monotone_witness :
    ((95 : ℚ) ≤ 98 ∧ (85 : ℚ) ≤ 85 ∧ (85 : ℚ) ≤ 85) ∧
    ((∀ s, List.Sublist
        (load_ani_edges exMonoRows 98 85 85 ["a", "c", "d"] s)
        (load_ani_edges exMonoRows 95 85 85 ["a", "c", "d"] s)) ∧
      (∀ s, s ∉ (["a", "c", "d"] : List String) →
        load_ani_edges exMonoRows 98 85 85 ["a", "c", "d"] s = [] ∧
        load_ani_edges exMonoRows 95 85 85 ["a", "c", "d"] s = [])) :=
  ⟨⟨by decide, by decide, by decide⟩,
    C4_threshold_monotone exMonoRows ["a", "c", "d"] 95 85 85 98 85 85
      (by decide) (by decide) (by decide)⟩

/-! ### Edge admission (claim C5) -/

/-- The condition under which one edge-file line contributes the undirected
edge between `s` and `n`: a parsed row connecting `s` and `n` in either
orientation that is not a self-comparison, has both endpoints in the vertex
set, and meets all three thresholds inclusively. -/
def edgeAdded (minAni minQcov minTcov : ℚ) (valid : List String)
    (s n : String) : AniLine → Prop
  | .malformed => False
  | .row qn tn _ ani qc tc =>
    ((qn = s ∧ tn = n) ∨ (qn = n ∧ tn = s)) ∧
    ¬(qn = tn ∨ qn ∉ valid ∨ tn ∉ valid) ∧
    minAni ≤ ani ∧ minQcov ≤ qc ∧ minTcov ≤ tc

/-- One row loop iteration adds to a neighbour list exactly the endpoints of
an admitted edge. -/
theorem aniEdgeStep_mem (a q t : ℚ) (valid : List String)
    (f : String → List String) (r : AniLine) (s n : String) :
    n ∈ aniEdgeStep a q t valid f r s ↔
      n ∈ f s ∨ edgeAdded a q t valid s n r := by
  match r with
  | AniLine.malformed => simp [aniEdgeStep, edgeAdded]
  | AniLine.row qn tn mk ani qc tc =>
    show n ∈ aniEdgeStep a q t valid f (AniLine.row qn tn mk ani qc tc) s ↔
      n ∈ f s ∨ edgeAdded a q t valid s n (AniLine.row qn tn mk ani qc tc)
    rw [aniEdgeStep, edgeAdded]
    by_cases hg : qn = tn ∨ qn ∉ valid ∨ tn ∉ valid
    · rw [if_pos hg]
      simp [hg]
    · rw [if_neg hg]
      have hqt : qn ≠ tn := by
        intro h
        exact hg (Or.inl h)
      by_cases hc : a ≤ ani ∧ q ≤ qc ∧ t ≤ tc
      · rw [if_pos hc]
        by_cases hsq : s = qn
        · rw [if_pos hsq]
          simp only [List.mem_append, List.mem_singleton]
          constructor
          · rintro (h | h)
            · exact Or.inl h
            · exact Or.inr ⟨Or.inl ⟨hsq.symm, h.symm⟩, hg, hc⟩
          · rintro (h | ⟨⟨_, h2⟩ | ⟨h1, h2⟩, _, _⟩)
            · exact Or.inl h
            · exact Or.inr h2.symm
            · exact absurd (h2.trans hsq).symm hqt
        · rw [if_neg hsq]
          by_cases hst : s = tn
          · rw [if_pos hst]
            simp only [List.mem_append, List.mem_singleton]
            constructor
            · rintro (h | h)
              · exact Or.inl h
              · exact Or.inr ⟨Or.inr ⟨h.symm, hst.symm⟩, hg, hc⟩
            · rintro (h | ⟨⟨h1, h2⟩ | ⟨h1, _⟩, _, _⟩)
              · exact Or.inl h
              · exact absurd h1.symm hsq
              · exact Or.inr h1.symm
          · rw [if_neg hst]
            constructor
            · exact Or.inl
            · rintro (h | ⟨⟨h1, _⟩ | ⟨_, h2⟩, _, _⟩)
              · exact h
              · exact absurd h1.symm hsq
              · exact absurd h2.symm hst
      · rw [if_neg hc]
        constructor
        · exact Or.inl
        · rintro (h | ⟨_, _, hc'⟩)
          · exact h
          · exact absurd hc' hc

/-- Membership in the adjacency built by folding the row loop, relative to
an arbitrary initial adjacency. -/
theorem load_ani_edges_mem_aux (a q t : ℚ) (valid : List String) :
    ∀ (rows : List AniLine) (f : String → List String) (s n : String),
    (n ∈ (rows.foldl (fun f line => aniEdgeStep a q t valid f line) f) s ↔
      n ∈ f s ∨ ∃ r ∈ rows, edgeAdded a q t valid s n r) := by
  intro rows
  induction rows with
  | nil => simp
  | cons r rows ih =>
    intro f s n
    rw [List.foldl_cons, ih, aniEdgeStep_mem]
    simp only [List.mem_cons, exists_eq_or_imp]
    tauto

/-- C5: `load_ani_edges` records the undirected edge between two distinct
identifiers exactly when some normalized row connects them (in either
orientation), both endpoints belong to the vertex set, and identity, query
coverage and target coverage each meet their threshold inclusively; rows
that are self-comparisons or leave the vertex set contribute nothing.  In
particular, the row x y 1 96.50 90.00 90.00 yields the edge x–y under
thresholds (95, 85, 85) and no edge when the target-coverage threshold is
raised to 95. -/
theorem C5_edge_admission :
    (∀ (rows : List AniLine) (a q t : ℚ) (valid : List String)
      (s n : String),
      n ∈ load_ani_edges rows a q t valid s ↔
        ∃ r ∈ rows, edgeAdded a q t valid s n r) ∧
    ("y" ∈ load_ani_edges [AniLine.row "x" "y" "1" 96.50 90 90]
        95 85 85 ["x", "y"] "x" ∧
      "x" ∈ load_ani_edges [AniLine.row "x" "y" "1" 96.50 90 90]
        95 85 85 ["x", "y"] "y") ∧
    (load_ani_edges [AniLine.row "x" "y" "1" 96.50 90 90]
        95 85 95 ["x", "y"] "x" = [] ∧
      load_ani_edges [AniLine.row "x" "y" "1" 96.50 90 90]
        95 85 95 ["x", "y"] "y" = []) := by
  have hiff : ∀ (rows : List AniLine) (a q t : ℚ) (valid : List String)
      (s n : String),
      n ∈ load_ani_edges rows a q t valid s ↔
        ∃ r ∈ rows, edgeAdded a q t valid s n r := by
    intro rows a q t valid s n
    rw [load_ani_edges, load_ani_edges_mem_aux]
    simp
  have hguard : ¬(("x" : String) = "y" ∨ ("x" : String) ∉ ["x", "y"] ∨
      ("y" : String) ∉ (["x", "y"] : List String)) := by decide
  have hthr : (95 : ℚ) ≤ 96.50 ∧ (85 : ℚ) ≤ 90 ∧ (85 : ℚ) ≤ 90 := by
    norm_num
  refine ⟨hiff, ⟨?_, ?_⟩, ?_, ?_⟩
  · exact (hiff _ _ _ _ _ _ _).mpr
      ⟨AniLine.row "x" "y" "1" 96.50 90 90, List.mem_singleton_self _,
        Or.inl ⟨rfl, rfl⟩, hguard, hthr⟩
  · exact (hiff _ _ _ _ _ _ _).mpr
      ⟨AniLine.row "x" "y" "1" 96.50 90 90, List.mem_singleton_self _,
        Or.inr ⟨rfl, rfl⟩, hguard, hthr⟩
  · refine List.eq_nil_iff_forall_not_mem.mpr ?_
    intro n hn
    obtain ⟨r, hr, hA⟩ := (hiff _ _ _ _ _ _ _).mp hn
    rw [List.mem_singleton] at hr
    subst hr
    have h90 := hA.2.2.2.2
    norm_num at h90
  · refine List.eq_nil_iff_forall_not_mem.mpr ?_
    intro n hn
    obtain ⟨r, hr, hA⟩ := (hiff _ _ _ _ _ _ _).mp hn
    rw [List.mem_singleton] at hr
    subst hr
    have h90 := hA.2.2.2.2
    norm_num at h90

/-! ### Output normalization (claim C6) -/

/-- Declarative per-line behaviour of the normalizer: a parsed row yields
exactly one 6-field output row — source, target, the constant 1, identity,
and the two coverages converted to percentages, all numeric fields rounded
to two decimals — and a dropped line yields nothing. -/
def skaniLineOut : SkaniLine → Option OutRow
  | .malformed => none
  | .row q t ani qcov tcov =>
    some ⟨q, t, 1, fmt2 ani, fmt2 (qcov * 100), fmt2 (tcov * 100)⟩

theorem formatRows_eq_filterMap (lines : List SkaniLine) :
    formatRows lines = lines.filterMap skaniLineOut := by
  induction lines with
  | nil => rfl
  | cons l rest ih =>
    match l with
    | SkaniLine.malformed => simp [formatRows, skaniLineOut, ih]
    | SkaniLine.row q t ani qc tc => simp [formatRows, skaniLineOut, ih]

/-- C6: `format_skani_output` discards the first (header) line and maps each
later line through the per-row normalization: a row with parsed identity and
coverages emits exactly one output row `(source, target, 1, identity,
qcov*100, tcov*100)` rounded to two decimals, a line with too few fields or
unparseable numbers emits nothing and processing continues.  The marker
field is always the constant 1, an empty input produces no output, and the
coverage fraction 0.9000 normalizes to 90.00. -/
theorem C6_format_skani :
    (∀ lines : List SkaniLine,
      format_skani_output lines = (lines.drop 1).filterMap skaniLineOut) ∧
    (∀ (lines : List SkaniLine) (r : OutRow),
      r ∈ format_skani_output lines → r.marker = 1) ∧
    format_skani_output [] = [] ∧
    format_skani_output
        [SkaniLine.malformed, SkaniLine.row "x" "y" 96.50 0.9000 0.9000] =
      [⟨"x", "y", 1, 96.50, 90, 90⟩] := by
  have hmain : ∀ lines : List SkaniLine,
      format_skani_output lines = (lines.drop 1).filterMap skaniLineOut := by
    intro lines
    match lines with
    | [] => rfl
    | l :: rest =>
      show formatRows rest = (rest : List SkaniLine).filterMap skaniLineOut
      exact formatRows_eq_filterMap rest
  refine ⟨hmain, ?_, rfl, ?_⟩
  · intro lines r hr
    rw [hmain] at hr
    obtain ⟨a, _, ha⟩ := List.mem_filterMap.mp hr
    match a with
    | SkaniLine.malformed => exact absurd ha (by simp [skaniLineOut])
    | SkaniLine.row q t ani qc tc =>
      rw [skaniLineOut] at ha
      cases ha
      rfl
  · show formatRows [SkaniLine.row "x" "y" 96.50 0.9000 0.9000] =
      [⟨"x", "y", 1, 96.50, 90, 90⟩]
    rw [formatRows, formatRows]
    have h1 : fmt2 96.50 = 96.50 := by
      rw [fmt2]
      norm_num [round_eq]
    have h2 : fmt2 (0.9000 * 100) = 90 := by
      rw [fmt2]
      norm_num [round_eq]
    rw [h1, h2]

/-! ### Missing or empty input (claim C7) -/

/-- C7: if the input directory holds no file matching the FASTA patterns,
`aggregate_fastas` fails with an explicit error before writing anything, and
`run_pipeline` propagates that failure — the pipeline result is the error,
produced before any clustering work, and carries no written output (writes
are only ever returned on success).  Independently, if the input sequence
file cannot be opened, `perform_clustering` fails before any clustering or
write. -/
theorem C7_missing_input (dir : List (String × String))
    (h : ∀ f ∈ dir, matchesFastaPattern f.1 = false) :
    aggregate_fastas dir =
      Except.error "No FASTA files (*.fa, *.fasta, *.fna) found." ∧
    (∀ (skaniLines : List SkaniLine) (minAni minTcov : ℚ),
      run_pipeline dir skaniLines minAni minTcov =
        Except.error "No FASTA files (*.fa, *.fasta, *.fna) found.") ∧
    (∀ (aniRows : Option (List AniLine)) (p : ClusteringParams),
      perform_clustering none aniRows p =
        Except.error (p.fna ++ ": cannot open input sequence file")) := by
  have hfil : dir.filter (fun f => matchesFastaPattern f.1) = [] := by
    refine List.filter_eq_nil_iff.mpr ?_
    intro a ha
    rw [h a ha]
    exact Bool.false_ne_true
  have hagg : aggregate_fastas dir =
      Except.error "No FASTA files (*.fa, *.fasta, *.fna) found." := by
    rw [aggregate_fastas, hfil]
    rfl
  refine ⟨hagg, ?_, ?_⟩
  · intro skaniLines minAni minTcov
    rw [run_pipeline, hagg]
  · intro aniRows p
    rfl

theorem C7_missing_input_witness :
    (∀ f ∈ ([("readme.txt", "no sequences here")] : List (String × String)),
      matchesFastaPattern f.1 = false) ∧
    (aggregate_fastas [("readme.txt", "no sequences here")] =
      Except.error "No FASTA files (*.fa, *.fasta, *.fna) found." ∧
    (∀ (skaniLines : List SkaniLine) (minAni minTcov : ℚ),
      run_pipeline [("readme.txt", "no sequences here")] skaniLines
          minAni minTcov =
        Except.error "No FASTA files (*.fa, *.fasta, *.fna) found.") ∧
    (∀ (aniRows : Option (List AniLine)) (p : ClusteringParams),
      perform_clustering none aniRows p =
        Except.error (p.fna ++ ": cannot open input sequence file"))) :=
  ⟨by decide, C7_missing_input [("readme.txt", "no sequences here")]
    (by decide)⟩

/-! ### Duplicate identifiers in the length mapping (claim C9) -/

/-- Lookup distributes over concatenation: first list wins. -/
theorem dget?_append {α : Type} :
    ∀ (d₁ d₂ : List (String × α)) (k : String),
    dget? (d₁ ++ d₂) k = (dget? d₁ k).or (dget? d₂ k) := by
  intro d₁
  induction d₁ with
  | nil => intro d₂ k; rfl
  | cons p d₁ ih =>
    intro d₂ k
    show (if p.1 = k then some p.2 else dget? (d₁ ++ d₂) k) =
      ((if p.1 = k then some p.2 else dget? d₁ k).or (dget? d₂ k))
    by_cases hp : p.1 = k
    · rw [if_pos hp, if_pos hp]
      rfl
    · rw [if_neg hp, if_neg hp, ih]

/-- Lookup after an in-place overwrite of key `k` in the mapped list. -/
theorem dget?_map_overwrite {α : Type} (k : String) (v : α) :
    ∀ (d : List (String × α)) (k' : String),
    dget? (d.map (fun p => if p.1 == k then (k, v) else p)) k' =
      if k' = k ∧ d.any (fun p => p.1 == k) then some v else dget? d k' := by
  intro d
  induction d with
  | nil =>
    intro k'
    simp [dget?]
  | cons p d ih =>
    intro k'
    by_cases hp : p.1 = k
    · have hpb : (p.1 == k) = true := beq_iff_eq.mpr hp
      simp only [List.map_cons, hpb, ite_true]
      show (if (k, v).1 = k' then some (k, v).2
          else dget? (d.map (fun p => if p.1 == k then (k, v) else p)) k') =
        if k' = k ∧ (p :: d).any (fun p => p.1 == k) then some v
          else dget? (p :: d) k'
      by_cases hk : k' = k
      · rw [if_pos (show (k, v).1 = k' from hk.symm),
          if_pos ⟨hk, by simp [List.any_cons, hpb]⟩]
      · rw [if_neg (show ¬ (k, v).1 = k' from fun h => hk h.symm), ih,
          if_neg (fun hc => hk hc.1), if_neg (fun hc => hk hc.1)]
        show dget? d k' = dget? (p :: d) k'
        have : ¬ p.1 = k' := fun h => hk (h.symm.trans hp)
        rw [show dget? (p :: d) k' =
          if p.1 = k' then some p.2 else dget? d k' from rfl, if_neg this]
    · have hpb : ¬ (p.1 == k) = true := by
        simp only [beq_iff_eq]
        exact hp
      simp only [List.map_cons, hpb, ite_false]
      show (if p.1 = k' then some p.2
          else dget? (d.map (fun p => if p.1 == k then (k, v) else p)) k') =
        if k' = k ∧ (p :: d).any (fun p => p.1 == k) then some v
          else dget? (p :: d) k'
      have hany : ((p :: d).any (fun p => p.1 == k)) =
          (d.any (fun p => p.1 == k)) := by
        simp [List.any_cons, hpb]
      by_cases hpk : p.1 = k'
      · have hcond : ¬ (k' = k ∧ ((p :: d).any (fun p => p.1 == k)) = true) := by
          rintro ⟨h1, _⟩
          exact hp (hpk.trans h1)
        rw [if_pos hpk, if_neg hcond]
        rw [show dget? (p :: d) k' =
          if p.1 = k' then some p.2 else dget? d k' from rfl, if_pos hpk]
      · rw [if_neg hpk, ih, hany]
        rw [show dget? (p :: d) k' =
          if p.1 = k' then some p.2 else dget? d k' from rfl, if_neg hpk]

/-- Lookup after a Python-dict update: the updated key reads the new value,
every other key is unchanged. -/
theorem dget?_dictUpsert {α : Type} (d : List (String × α)) (k k' : String)
    (v : α) :
    dget? (dictUpsert d k v) k' = if k' = k then some v else dget? d k' := by
  rw [dictUpsert]
  by_cases hany : d.any (fun p => p.1 == k)
  · rw [if_pos hany, dget?_map_overwrite]
    by_cases hk : k' = k
    · rw [if_pos ⟨hk, hany⟩, if_pos hk]
    · rw [if_neg (fun hc => hk hc.1), if_neg hk]
  · rw [if_neg hany, dget?_append]
    by_cases hk : k' = k
    · have hnone : dget? d k' = none := by
        induction d with
        | nil => rfl
        | cons p d ih =>
          have hpb : ¬ (p.1 == k) = true := by
            intro hb
            exact hany (by simp [List.any_cons, hb])
          have hp : ¬ p.1 = k' := by
            intro h
            exact hpb (beq_iff_eq.mpr (h.trans hk))
          rw [show dget? (p :: d) k' =
            if p.1 = k' then some p.2 else dget? d k' from rfl, if_neg hp]
          refine ih ?_
          intro hb
          rcases (List.any_eq_true).mp hb with ⟨a, ha, hab⟩
          exact hany ((List.any_eq_true).mpr ⟨a, List.mem_cons_of_mem p ha, hab⟩)
      rw [hnone, if_pos hk]
      show dget? [(k, v)] k' = some v
      rw [show dget? [(k, v)] k' =
        if (k, v).1 = k' then some (k, v).2 else dget? [] k' from rfl,
        if_pos (show (k, v).1 = k' from hk.symm)]
    · rw [if_neg hk]
      have h1 : dget? [(k, v)] k' = none := by
        rw [show dget? [(k, v)] k' =
          if (k, v).1 = k' then some (k, v).2 else dget? [] k' from rfl,
          if_neg (show ¬ (k, v).1 = k' from fun h => hk h.symm)]
        rfl
      rw [h1, Option.or_none]

/-- Lookup in the dict built by folding upserts over a record list: the
value of the last record with the looked-up key, or else the prior
binding. -/
theorem dget?_foldl_upsert (g : String × String → Nat) :
    ∀ (rs : List (String × String)) (d : List (String × Nat)) (k : String),
    dget? (rs.foldl (fun d r => dictUpsert d r.1 (g r)) d) k =
      match rs.reverse.find? (fun r => r.1 == k) with
      | some r => some (g r)
      | none => dget? d k := by
  intro rs
  induction rs with
  | nil =>
    intro d k
    rfl
  | cons r rs ih =>
    intro d k
    rw [List.foldl_cons, ih, List.reverse_cons, List.find?_append]
    by_cases hfind : rs.reverse.find? (fun r => r.1 == k) = none
    · rw [hfind]
      by_cases hk : r.1 = k
      · have hb : (r.1 == k) = true := beq_iff_eq.mpr hk
        rw [show List.find? (fun r => r.1 == k) [r] = some r by
          simp [List.find?, hb]]
        show dget? (dictUpsert d r.1 (g r)) k = some (g r)
        rw [dget?_dictUpsert, if_pos hk.symm]
      · have hb : (r.1 == k) = false := by
          simp only [beq_eq_false_iff_ne, ne_eq]
          exact hk
        rw [show List.find? (fun r => r.1 == k) [r] = none by
          simp [List.find?, hb]]
        show dget? (dictUpsert d r.1 (g r)) k = dget? d k
        rw [dget?_dictUpsert, if_neg (fun h => hk h.symm)]
    · obtain ⟨r', hr'⟩ := Option.ne_none_iff_exists'.mp hfind
      rw [hr']
      rfl

/-- C9: when the parsed sequence records contain several with the same
identifier, `read_fasta_lengths` maps that identifier to the length of the
LAST such record in file order (later records overwrite earlier ones in the
mapping); identifiers never parsed are absent.  Duplicates cause no error:
the function is total. -/
theorem C9_last_wins (lines : List String) (id : String) :
    dget? (read_fasta_lengths lines) id =
      match (parse_fasta lines).reverse.find? (fun r => r.1 == id) with
      | some r => some r.2.length
      | none => none := by
  rw [read_fasta_lengths, dget?_foldl_upsert (fun r => r.2.length)]
  rfl

end ViralCataloger